import Mathlib

/-!
Verification of the ovsdb-etcd transaction engine (pkg/ovsdb/transact.go)
against its natural-language specification.

The Go source is shallowly embedded: Go values that can live in a row cell
are the inductive `Value` below, rows are association lists from column
names to values, the etcd transaction buffer is the structure `Etcd` with
its write list (`Then`), event list (`Events`) and nil-event counter.
Functions keep the source's names where Lean allows it.  Machine integers
are modelled as `Int` (Go `int` arithmetic does not overflow in any code
path exercised here); Go's truncated division and remainder are
`Int.tdiv` / `Int.tmod`.  Go runtime panics from failed interface type
assertions are modelled as a distinguished error string `E_GO_PANIC`.
-/

/-! ## Value model

`interface{}` values appearing inside rows, sets and maps.  OVSDB sets and
maps hold base-typed (atomic) values, so the nesting is one level deep.
Go's `reflect.DeepEqual` on these values is structural equality, which is
the derived decidable equality.  Go `float64` column values are modelled by
the abstract numeric carrier `Atom.real` (an integer); none of the claims
checked here depends on floating-point arithmetic.  `Value.null` is the Go
nil interface value, which reading a missing key from a
`map[string]interface{}` produces. -/

inductive Atom where
  | int (i : Int)
  | real (r : Int)
  | bool (b : Bool)
  | str (s : String)
  | uuid (u : String)
deriving DecidableEq, Repr

/-- `libovsdb.OvsSet`: its `GoSet` field is a Go slice of values. -/
structure OvsSet where
  GoSet : List Atom
deriving DecidableEq, Repr

/-- `libovsdb.OvsMap`: its `GoMap` field is a Go map, modelled as an
association list (a well-formed Go map has no duplicate keys, but none of
the embedded functions needs that assumption). -/
structure OvsMap where
  GoMap : List (Atom × Atom)
deriving DecidableEq, Repr

inductive Value where
  | null
  | atom (a : Atom)
  | set (s : OvsSet)
  | map (m : OvsMap)
deriving DecidableEq, Repr

/-- Go map read `m.GoMap[key]` (comma-ok form): first matching entry. -/
def mapGet : List (Atom × Atom) → Atom → Option Atom
  | [], _ => none
  | (k', v) :: t, k => if k' = k then some v else mapGet t k

/-- transact.go:80-82 `isEqualValue`: `reflect.DeepEqual`, i.e. structural
equality. -/
def isEqualValue (expected actual : Atom) : Bool :=
  expected = actual

/-- transact.go:48-63 `isEqualSet`: every element of `expected` must be
`isEqualValue` to some element of `actual` (the inner loop sets `foundVal`
without breaking, i.e. an existential scan; the outer loop fails fast). -/
def isEqualSet (expected actual : OvsSet) : Bool :=
  expected.GoSet.all fun expectedVal =>
    actual.GoSet.any fun actualVal => isEqualValue expectedVal actualVal

/-- transact.go:65-78 `isEqualMap`: every key of `expected` must be present
in `actual` with an `isEqualValue`-equal value. -/
def isEqualMap (expected actual : OvsMap) : Bool :=
  expected.GoMap.all fun kv =>
    match mapGet actual.GoMap kv.1 with
    | none => false
    | some actualVal => isEqualValue kv.2 actualVal

/-- The claim's words for C3: inclusion in both directions — every key of
one map is present in the other with a structurally equal value, and vice
versa.  Stated from the spec, for comparison with `isEqualMap`. -/
def bothDirectionInclusion (m1 m2 : OvsMap) : Bool :=
  (m1.GoMap.all fun kv => mapGet m2.GoMap kv.1 = some kv.2) &&
  (m2.GoMap.all fun kv => mapGet m1.GoMap kv.1 = some kv.2)

/-! ### Characterisations of the equality checks -/

theorem isEqualSet_eq_true_iff (s t : OvsSet) :
    isEqualSet s t = true ↔ ∀ a ∈ s.GoSet, a ∈ t.GoSet := by
  simp only [isEqualSet, List.all_eq_true, List.any_eq_true, isEqualValue,
    decide_eq_true_eq]
  constructor
  · intro h a ha
    obtain ⟨b, hb, hab⟩ := h a ha
    exact hab ▸ hb
  · intro h a ha
    exact ⟨a, h a ha, rfl⟩

theorem isEqualMap_eq_true_iff (m1 m2 : OvsMap) :
    isEqualMap m1 m2 = true ↔ ∀ kv ∈ m1.GoMap, mapGet m2.GoMap kv.1 = some kv.2 := by
  simp only [isEqualMap, List.all_eq_true]
  constructor
  · intro h kv hkv
    have := h kv hkv
    cases hm : mapGet m2.GoMap kv.1 with
    | none => rw [hm] at this; exact absurd this (by simp)
    | some av =>
      rw [hm] at this
      simp only [isEqualValue, decide_eq_true_eq] at this
      rw [this]
  · intro h kv hkv
    rw [h kv hkv]
    simp [isEqualValue]

/-! ## Claims C2 and C3: set and map equality -/

/-- Claim C2, counterexample: `isEqualSet` is not symmetric, hence not an
equivalence relation.  The empty set is `isEqualSet`-below any set, but not
conversely: the check is one-directional inclusion (transact.go:48-63 only
scans the elements of `expected`). -/
theorem C2_isEqualSet_not_symmetric :
    isEqualSet ⟨[]⟩ ⟨[Atom.int 0]⟩ = true ∧
    isEqualSet ⟨[Atom.int 0]⟩ ⟨[]⟩ = false := by
  decide

/-- Claim C2 as amended: `isEqualSet` is reflexive and transitive, and its
result is invariant under reordering of the elements of either set; it is
not symmetric (see the counterexample). -/
theorem C2_isEqualSet_laws_amended :
    (∀ s : OvsSet, isEqualSet s s = true) ∧
    (∀ s t u : OvsSet, isEqualSet s t = true → isEqualSet t u = true →
      isEqualSet s u = true) ∧
    (∀ s s' t t' : OvsSet, s.GoSet.Perm s'.GoSet → t.GoSet.Perm t'.GoSet →
      isEqualSet s t = isEqualSet s' t') := by
  refine ⟨?_, ?_, ?_⟩
  · intro s
    exact (isEqualSet_eq_true_iff s s).mpr fun a ha => ha
  · intro s t u hst htu
    rw [isEqualSet_eq_true_iff] at *
    exact fun a ha => htu _ (hst a ha)
  · intro s s' t t' hs ht
    have : isEqualSet s t = true ↔ isEqualSet s' t' = true := by
      rw [isEqualSet_eq_true_iff, isEqualSet_eq_true_iff]
      constructor
      · intro h a ha
        exact (ht.mem_iff).mp (h a (hs.mem_iff.mpr ha))
      · intro h a ha
        exact (ht.mem_iff).mpr (h a (hs.mem_iff.mp ha))
    cases hb : isEqualSet s' t' with
    | true => exact this.mpr hb
    | false =>
      cases hb' : isEqualSet s t with
      | true => exact absurd (this.mp hb') (by simp [hb])
      | false => rfl

/-- Witness for C2: the amended laws applied at concrete sets. -/
theorem C2_isEqualSet_laws_amended_witness :
    isEqualSet ⟨[Atom.int 1]⟩ ⟨[Atom.int 1]⟩ = true ∧
    isEqualSet ⟨[Atom.int 1]⟩ ⟨[Atom.int 1, Atom.int 2, Atom.int 3]⟩ = true ∧
    isEqualSet ⟨[Atom.int 1, Atom.int 2]⟩ ⟨[Atom.int 2, Atom.int 1]⟩ =
      isEqualSet ⟨[Atom.int 2, Atom.int 1]⟩ ⟨[Atom.int 1, Atom.int 2]⟩ :=
  ⟨C2_isEqualSet_laws_amended.1 _,
   C2_isEqualSet_laws_amended.2.1 ⟨[Atom.int 1]⟩ ⟨[Atom.int 1, Atom.int 2]⟩
     ⟨[Atom.int 1, Atom.int 2, Atom.int 3]⟩ (by decide) (by decide),
   C2_isEqualSet_laws_amended.2.2 _ _ _ _ (by decide) (by decide)⟩

/-- Claim C3, counterexample: `isEqualMap` is not equivalent to inclusion in
both directions.  The empty map is `isEqualMap`-equal to a non-empty map,
but the non-empty map's key is not present in the empty map, so backward
inclusion fails (transact.go:65-78 only scans the keys of `expected`). -/
theorem C3_isEqualMap_not_bidirectional :
    ¬ (isEqualMap ⟨[]⟩ ⟨[(Atom.str "k", Atom.int 1)]⟩ = true ↔
       bothDirectionInclusion ⟨[]⟩ ⟨[(Atom.str "k", Atom.int 1)]⟩ = true) := by
  decide

/-- Claim C3 as amended: `isEqualMap expected actual` holds if and only if
forward inclusion holds — every key of `expected` is present in `actual`
with a structurally equal value.  The reverse inclusion is not checked. -/
theorem C3_isEqualMap_forward_inclusion (m1 m2 : OvsMap) :
    isEqualMap m1 m2 = true ↔ ∀ kv ∈ m1.GoMap, mapGet m2.GoMap kv.1 = some kv.2 :=
  isEqualMap_eq_true_iff m1 m2

/-! ## Error strings (transact.go:24-46) -/

def E_DUP_UUIDNAME : String := "duplicate uuid-name"
def E_CONSTRAINT_VIOLATION : String := "constraint violation"
def E_DOMAIN_ERROR : String := "domain error"
def E_TIMEOUT : String := "timed out"
def E_NOT_SUPPORTED : String := "not supported"
def E_ABORTED : String := "aborted"
def E_IO_ERROR : String := "I/O error"
def E_DUP_UUID : String := "duplicate uuid"
def E_INTERNAL_ERROR : String := "internal error"

/-- Not a source error string: models a Go runtime panic from a failed
interface type assertion (for example `(*row)[m.Column].(int)` in
transact.go:1150 when the cell does not hold an int).  In Go the panic
unwinds instead of returning an error; the embedding surfaces it as this
distinguished error value. -/
def E_GO_PANIC : String := "go runtime panic"

def COL_UUID : String := "_uuid"
def COL_VERSION : String := "_version"

/-! ## Etcd events and operations

`clientv3.Event` / `mvccpb.KeyValue` restricted to the fields the engine
reads, and `clientv3.Op` restricted to the operations the engine builds
(range-get, put, delete) with the flat backend key.  Keys produced by the
external `common` key codec are opaque strings here. -/

structure EventKv where
  Key : String
  Value : String
  CreateRevision : Int
  ModRevision : Int
deriving DecidableEq, Repr

inductive EventType where
  | put
  | delete
deriving DecidableEq, Repr

structure Event where
  type : EventType
  Kv : Option EventKv
  PrevKv : Option EventKv
deriving DecidableEq, Repr

inductive EtcdOp where
  | get (key : String)
  | put (key val : String)
  | del (key : String)
deriving DecidableEq, Repr

/-- transact.go:131-136 `etcdOpKey`: the key field of an op. -/
def etcdOpKey : EtcdOp → String
  | .get k => k
  | .put k _ => k
  | .del k => k

/-- transact.go:165-173 `etcdEventKey`: key of `Kv`, else of `PrevKv`;
the source panics when both are nil, modelled by the empty string. -/
def etcdEventKey (ev : Event) : String :=
  match ev.Kv with
  | some kv => kv.Key
  | none =>
    match ev.PrevKv with
    | some kv => kv.Key
    | none => ""

/-- transact.go:1418-1423 `etcdEventIsCreate`: a PUT whose create revision
equals its mod revision.  The source nil-dereferences when `Kv` is nil;
modelled as false. -/
def etcdEventIsCreate (ev : Event) : Bool :=
  match ev.type with
  | .delete => false
  | .put =>
    match ev.Kv with
    | some kv => kv.CreateRevision = kv.ModRevision
    | none => false

/-- transact.go:1425-1430 `etcdEventIsModify`: a PUT whose create revision
is strictly below its mod revision. -/
def etcdEventIsModify (ev : Event) : Bool :=
  match ev.type with
  | .delete => false
  | .put =>
    match ev.Kv with
    | some kv => kv.CreateRevision < kv.ModRevision
    | none => false

/-- transact.go:1438-1449 `etcdEventCreate`. -/
def etcdEventCreate (key val : String) : Event :=
  { type := .put
    Kv := some { Key := key, Value := val, CreateRevision := 1, ModRevision := 1 }
    PrevKv := none }

/-- transact.go:1432-1436 `etcdEventCreateFromModify`: rebuilds a create
event from the key and (new) value of a modify event. -/
def etcdEventCreateFromModify (ev : Event) : Event :=
  match ev.Kv with
  | some kv => etcdEventCreate kv.Key kv.Value
  | none => etcdEventCreate "" ""

/-- transact.go:1451-1467 `etcdEventModify`. -/
def etcdEventModify (key val prevVal : String) : Event :=
  { type := .put
    Kv := some { Key := key, Value := val, CreateRevision := 1, ModRevision := 2 }
    PrevKv := some { Key := key, Value := prevVal, CreateRevision := 1, ModRevision := 1 } }

/-- transact.go:1469-1479 `etcdEventDelete`. -/
def etcdEventDelete (key prevVal : String) : Event :=
  { type := .delete
    Kv := none
    PrevKv := some { Key := key, Value := prevVal, CreateRevision := 1, ModRevision := 1 } }

/-- transact.go:442-451 `Etcd`: the backend transaction buffer.  `Then` is
the ordered write/get list, `Events` the pointer list of change events
(`none` is a Go nil pointer), `EventsNilCount` the explicit nil counter.
The `If`/`Else`/`Res`/client fields carry no state the claims mention. -/
structure Etcd where
  Then : List EtcdOp
  Events : List (Option Event)
  EventsNilCount : Nat
deriving DecidableEq, Repr

/-- transact.go:453-457 `Etcd.Assert`: the pairing invariant the source
panics on — `len(Then) == len(Events) + EventsNilCount`. -/
def Etcd.pairing (etcd : Etcd) : Prop :=
  etcd.Then.length = etcd.Events.length + etcd.EventsNilCount

instance (etcd : Etcd) : Decidable etcd.pairing := by
  unfold Etcd.pairing; infer_instance

/-- transact.go:473-481 `Etcd.Clear`: the cleared buffer. -/
def clearedEtcd : Etcd :=
  { Then := [], Events := [], EventsNilCount := 0 }

/-- transact.go:1398-1402 `etcdGetData`: appends a range-get to `Then`
without appending an event (and without calling `Assert`). -/
def etcdGetData (etcd : Etcd) (key : String) : Etcd :=
  { etcd with Then := etcd.Then ++ [EtcdOp.get key] }

/-- transact.go:1481-1496 `etcdCreateRow`: appends a put and the matching
create event (the serialized row value is the opaque string `val`). -/
def etcdCreateRow (etcd : Etcd) (key val : String) : Etcd :=
  { etcd with
    Then := etcd.Then ++ [EtcdOp.put key val]
    Events := etcd.Events ++ [some (etcdEventCreate key val)] }

/-- transact.go:1498-1518 `etcdModifyRow`: appends a put and the matching
modify event (`prevVal` is the serialized cached row). -/
def etcdModifyRow (etcd : Etcd) (key val prevVal : String) : Etcd :=
  { etcd with
    Then := etcd.Then ++ [EtcdOp.put key val]
    Events := etcd.Events ++ [some (etcdEventModify key val prevVal)] }

/-- transact.go:1520-1535 `etcdDeleteRow`: appends a delete and the
matching delete event. -/
def etcdDeleteRow (etcd : Etcd) (key prevVal : String) : Etcd :=
  { etcd with
    Then := etcd.Then ++ [EtcdOp.del key]
    Events := etcd.Events ++ [some (etcdEventDelete key prevVal)] }

/-- transact.go:1873-1883 `doComment`, buffer effect: appends a put of the
comment under its timestamp key and a nil event placeholder (the counter is
not incremented here; the nil placeholder keeps the lists aligned). -/
def doCommentAppend (etcd : Etcd) (key comment : String) : Etcd :=
  { etcd with
    Then := etcd.Then ++ [EtcdOp.put key comment]
    Events := etcd.Events ++ [none] }

/-! ## Change-event compaction (transact.go:138-221)

Both passes walk the list with a running index and a Go map
`prevKeyIndex : key → last index seen`; the association-list operations
below model that map. -/

/-- Go map read `prevKeyIndex[key]` (comma-ok form). -/
def alookup : List (String × Nat) → String → Option Nat
  | [], _ => none
  | (k', v) :: t, k => if k' = k then some v else alookup t k

/-- Go map write `prevKeyIndex[key] = i`. -/
def aset : List (String × Nat) → String → Nat → List (String × Nat)
  | [], k, v => [(k, v)]
  | (k', v') :: t, k, v => if k' = k then (k, v) :: t else (k', v') :: aset t k v

/-- transact.go:146-155, the marking loop of `etcdRemoveDupThen`: walking
the keys with index `i`, whenever a key was already seen the slot at its
previous index (`prevKeyIndex[key]`) is nulled.  This returns the set of
nulled indices (order irrelevant; only membership is used). -/
def dupThenMarks : List String → Nat → List (String × Nat) → List Nat
  | [], _, _ => []
  | k :: ks, i, idx =>
    match alookup idx k with
    | some prev => prev :: dupThenMarks ks (i + 1) (aset idx k i)
    | none => dupThenMarks ks (i + 1) (aset idx k i)

/-- transact.go:138-163 `Transaction.etcdRemoveDupThen` on the `Then` list:
null every index marked by the loop above, then drop the nulls. -/
def etcdRemoveDupThenList (ops : List EtcdOp) : List EtcdOp :=
  let marks := dupThenMarks (ops.map etcdOpKey) 0 []
  (ops.enum.filter (fun p => ¬ p.1 ∈ marks)).map (fun p => p.2)

def etcdRemoveDupThen (etcd : Etcd) : Etcd :=
  { etcd with Then := etcdRemoveDupThenList etcd.Then }

/-- transact.go:189-205, the slot-transforming loop of
`etcdRemoveDupEvents`: `newEvents` starts as a copy of the event list;
nil slots are skipped; for a non-nil slot whose key was already seen, the
source first rewrites the slot to a fused create when a modify follows a
create (line 199) and then unconditionally overwrites the same slot with
nil (line 202), so the fused event is discarded and the slot always ends
up nil.  `prevEvents` is the untouched copy the source reads `prev` from. -/
def dupEventsSlots (prevEvents : List (Option Event)) :
    List (Option Event) → Nat → List (String × Nat) → List (Option Event)
  | [], _, _ => []
  | none :: evs, i, idx => none :: dupEventsSlots prevEvents evs (i + 1) idx
  | some ev :: evs, i, idx =>
    let key := etcdEventKey ev
    match alookup idx key with
    | some prevIndex =>
      let prev := prevEvents.getD prevIndex none
      let _fusedThenDiscarded : Option Event :=
        if etcdEventIsModify ev && prev.elim false etcdEventIsCreate then
          some (etcdEventCreateFromModify ev)
        else some ev
      none :: dupEventsSlots prevEvents evs (i + 1) (aset idx key i)
    | none => some ev :: dupEventsSlots prevEvents evs (i + 1) (aset idx key i)

/-- transact.go:175-214 `Transaction.etcdRemoveDupEvents`: the first loop
(lines 176-187) copies `Events` into `prevEvents`/`newEvents` and adds one
to the nil counter per nil entry; the second loop nulls duplicate-key
slots; the final loop (lines 207-213) drops the nil slots. -/
def etcdRemoveDupEvents (etcd : Etcd) : Etcd :=
  let prevEvents := etcd.Events
  let nilCount := etcd.EventsNilCount + etcd.Events.countP (fun e => e.isNone)
  let slots := dupEventsSlots prevEvents etcd.Events 0 []
  { etcd with Events := slots.filter (fun e => e.isSome), EventsNilCount := nilCount }

/-- transact.go:216-221 `Transaction.etcdRemoveDup`: both passes in source
order (the closing `Assert` is the pairing proposition, proved under C6). -/
def etcdRemoveDup (etcd : Etcd) : Etcd :=
  etcdRemoveDupEvents (etcdRemoveDupThen etcd)

/-! ## Claim C1: create-then-modify fusion -/

/-- Claim C1 (code bug): a transaction that creates key "k" with value
"v1" and then modifies it to "v2" builds the buffer
`Then = [put k v1, put k v2]`, `Events = [create(k,v1), modify(k,v2)]`.
After compaction the write stream keeps the final put (value "v2"), but
the emitted event stream is a single create carrying the ORIGINAL value
"v1", not the final value: the fused create built at transact.go:199 is
overwritten with nil at line 202, and the surviving event is the first
one for the key. -/
theorem C1_fusion_emits_original_value :
    etcdRemoveDup (etcdModifyRow (etcdCreateRow clearedEtcd "k" "v1") "k" "v2" "v1") =
      { Then := [EtcdOp.put "k" "v2"],
        Events := [some (etcdEventCreate "k" "v1")],
        EventsNilCount := 0 } ∧
    etcdEventCreate "k" "v1" ≠ etcdEventCreate "k" "v2" := by
  exact ⟨by decide, by decide⟩

/-! ## Bridging the compaction loops to their net semantics

The marking loop of `etcdRemoveDupThen` nulls, for every repeated key, the
previous occurrence; hence an op survives iff its key does not occur at a
later index (`keepLastOps`).  The slot loop of `etcdRemoveDupEvents` nulls
the current slot when its key was already seen; hence an event survives iff
it is the first non-nil event with its key (`keepFirstSlots`).  The lemmas
below prove both equivalences from the index-level simulations. -/

theorem alookup_aset (idx : List (String × Nat)) (k k' : String) (i : Nat) :
    alookup (aset idx k i) k' = if k' = k then some i else alookup idx k' := by
  induction idx with
  | nil =>
    by_cases h : k' = k
    · subst h; simp [aset, alookup]
    · have h' : ¬ k = k' := fun hc => h hc.symm
      simp [aset, alookup, h, h']
  | cons hd t ih =>
    by_cases h1 : hd.1 = k
    · subst h1
      by_cases h2 : k' = hd.1
      · subst h2; simp [aset, alookup]
      · have h2' : ¬ hd.1 = k' := fun hc => h2 hc.symm
        simp [aset, alookup, h2, h2']
    · by_cases h2 : hd.1 = k'
      · have h3 : ¬ k' = k := fun hc => h1 (hc ▸ h2)
        simp [aset, alookup, h1, h2, h3]
      · simp [aset, alookup, h1, h2, ih]

theorem alookup_eq_none_iff (idx : List (String × Nat)) (k : String) :
    alookup idx k = none ↔ k ∉ idx.map Prod.fst := by
  induction idx with
  | nil => simp [alookup]
  | cons hd t ih =>
    by_cases h : hd.1 = k
    · simp [alookup, h]
    · have h' : ¬ k = hd.1 := fun hc => h hc.symm
      simp [alookup, h, ih, h']

/-- Whether the key at index `t` occurs again at a later index. -/
def hasLaterDupB (ks : List String) (t : Nat) : Bool :=
  match ks[t]? with
  | some k => decide (k ∈ ks.drop (t + 1))
  | none => false

theorem hasLaterDupB_nil (t : Nat) : hasLaterDupB [] t = false := by
  simp [hasLaterDupB]

theorem hasLaterDupB_cons_zero (k : String) (ks : List String) :
    hasLaterDupB (k :: ks) 0 = decide (k ∈ ks) := by
  simp [hasLaterDupB]

theorem hasLaterDupB_cons_succ (k : String) (ks : List String) (t : Nat) :
    hasLaterDupB (k :: ks) (t + 1) = hasLaterDupB ks t := by
  simp [hasLaterDupB]

/-- Membership in the mark set of the `etcdRemoveDupThen` loop: an index is
nulled iff it lies inside the processed list and its key recurs later, or
it is the remembered index (`prevKeyIndex`) of a key that occurs in the
processed list. -/
theorem mem_dupThenMarks (ks : List String) :
    ∀ (i0 : Nat) (idx : List (String × Nat)) (j : Nat),
    j ∈ dupThenMarks ks i0 idx ↔
      ((∃ t, j = i0 + t ∧ hasLaterDupB ks t = true) ∨
       (∃ k, k ∈ ks ∧ alookup idx k = some j)) := by
  induction ks with
  | nil =>
    intro i0 idx j
    simp [dupThenMarks, hasLaterDupB_nil]
  | cons k ks ih =>
    intro i0 idx j
    have hsplit : (∃ t, j = i0 + t ∧ hasLaterDupB (k :: ks) t = true) ↔
        ((j = i0 ∧ k ∈ ks) ∨ ∃ t, j = (i0 + 1) + t ∧ hasLaterDupB ks t = true) := by
      constructor
      · rintro ⟨t, hj, ht⟩
        cases t with
        | zero =>
          rw [hasLaterDupB_cons_zero] at ht
          exact Or.inl ⟨by omega, of_decide_eq_true ht⟩
        | succ t =>
          rw [hasLaterDupB_cons_succ] at ht
          exact Or.inr ⟨t, by omega, ht⟩
      · rintro (⟨hj, hk⟩ | ⟨t, hj, ht⟩)
        · exact ⟨0, by omega, by rw [hasLaterDupB_cons_zero]; exact decide_eq_true hk⟩
        · exact ⟨t + 1, by omega, by rwa [hasLaterDupB_cons_succ]⟩
    have haset : (∃ k', k' ∈ ks ∧ alookup (aset idx k i0) k' = some j) ↔
        ((k ∈ ks ∧ j = i0) ∨ ∃ k', k' ∈ ks ∧ ¬ k' = k ∧ alookup idx k' = some j) := by
      constructor
      · rintro ⟨k', hk', hl⟩
        rw [alookup_aset] at hl
        by_cases hkk : k' = k
        · subst hkk
          rw [if_pos rfl] at hl
          exact Or.inl ⟨hk', by injection hl with h; omega⟩
        · rw [if_neg hkk] at hl
          exact Or.inr ⟨k', hk', hkk, hl⟩
      · rintro (⟨hk, hj⟩ | ⟨k', hk', hkk, hl⟩)
        · exact ⟨k, hk, by rw [alookup_aset, if_pos rfl, hj]⟩
        · exact ⟨k', hk', by rw [alookup_aset, if_neg hkk]; exact hl⟩
    have hhist : (∃ k', k' ∈ k :: ks ∧ alookup idx k' = some j) ↔
        (alookup idx k = some j ∨ ∃ k', k' ∈ ks ∧ alookup idx k' = some j) := by
      constructor
      · rintro ⟨k', hk', hl⟩
        rcases List.mem_cons.mp hk' with rfl | hmem
        · exact Or.inl hl
        · exact Or.inr ⟨k', hmem, hl⟩
      · rintro (hl | ⟨k', hmem, hl⟩)
        · exact ⟨k, List.mem_cons_self k ks, hl⟩
        · exact ⟨k', List.mem_cons_of_mem k hmem, hl⟩
    rw [hsplit, hhist]
    cases h : alookup idx k with
    | some p =>
      have hhist2 : (∃ k', k' ∈ ks ∧ alookup idx k' = some j) ↔
          ((∃ k', k' ∈ ks ∧ ¬ k' = k ∧ alookup idx k' = some j) ∨ (k ∈ ks ∧ j = p)) := by
        constructor
        · rintro ⟨k', hk', hl⟩
          by_cases hkk : k' = k
          · subst hkk
            rw [h] at hl
            exact Or.inr ⟨hk', by injection hl with hh; omega⟩
          · exact Or.inl ⟨k', hk', hkk, hl⟩
        · rintro (⟨k', hk', hkk, hl⟩ | ⟨hk, hj⟩)
          · exact ⟨k', hk', hl⟩
          · exact ⟨k, hk, by rw [h, hj]⟩
      simp only [dupThenMarks, h, List.mem_cons]
      rw [ih (i0 + 1) (aset idx k i0) j, haset, hhist2]
      simp only [Option.some.injEq]
      constructor
      · rintro (rfl | hss | ⟨hk, hj⟩ | hrest)
        · exact Or.inr (Or.inl rfl)
        · exact Or.inl (Or.inr hss)
        · exact Or.inl (Or.inl ⟨hj, hk⟩)
        · exact Or.inr (Or.inr (Or.inl hrest))
      · rintro ((⟨hj, hk⟩ | hss) | hpj | hrest | ⟨hk, hj⟩)
        · exact Or.inr (Or.inr (Or.inl ⟨hk, hj⟩))
        · exact Or.inr (Or.inl hss)
        · exact Or.inl hpj.symm
        · exact Or.inr (Or.inr (Or.inr hrest))
        · exact Or.inl hj
    | none =>
      have hhist3 : (∃ k', k' ∈ ks ∧ alookup idx k' = some j) ↔
          (∃ k', k' ∈ ks ∧ ¬ k' = k ∧ alookup idx k' = some j) := by
        constructor
        · rintro ⟨k', hk', hl⟩
          by_cases hkk : k' = k
          · subst hkk; rw [h] at hl; exact absurd hl (by simp)
          · exact ⟨k', hk', hkk, hl⟩
        · rintro ⟨k', hk', _, hl⟩
          exact ⟨k', hk', hl⟩
      simp only [dupThenMarks, h]
      rw [ih (i0 + 1) (aset idx k i0) j, haset, hhist3]
      constructor
      · rintro (hss | ⟨hk, hj⟩ | hrest)
        · exact Or.inl (Or.inr hss)
        · exact Or.inl (Or.inl ⟨hj, hk⟩)
        · exact Or.inr (Or.inr hrest)
      · rintro ((⟨hj, hk⟩ | hss) | hbad | hrest)
        · exact Or.inr (Or.inl ⟨hk, hj⟩)
        · exact Or.inl hss
        · simp [h] at hbad
        · exact Or.inr (Or.inr hrest)

/-- At the top level (empty index map, starting index 0) an index is marked
iff its key occurs again later. -/
theorem mem_dupThenMarks_top (ks : List String) (j : Nat) :
    j ∈ dupThenMarks ks 0 [] ↔ hasLaterDupB ks j = true := by
  rw [mem_dupThenMarks]
  constructor
  · rintro (⟨t, hj, ht⟩ | ⟨k, _, hl⟩)
    · rwa [show j = t by omega]
    · exact absurd hl (by simp [alookup])
  · intro h
    exact Or.inl ⟨j, by omega, h⟩

/-- Net semantics of the write-dedup pass: keep an op iff its key does not
occur later in the list (i.e. keep the last op for each key). -/
def keepLastOps : List EtcdOp → List EtcdOp
  | [] => []
  | op :: rest =>
    if etcdOpKey op ∈ rest.map etcdOpKey then keepLastOps rest
    else op :: keepLastOps rest

/-- Indexed intermediate form: keep the op at running index `t` iff
`hasLaterDupB ks t` is false. -/
def keepIdxOps (ks : List String) : Nat → List EtcdOp → List EtcdOp
  | _, [] => []
  | t, op :: rest =>
    match hasLaterDupB ks t with
    | true => keepIdxOps ks (t + 1) rest
    | false => op :: keepIdxOps ks (t + 1) rest

theorem keepIdx_spec (ks : List String) :
    ∀ (ops : List EtcdOp) (n : Nat),
    (((List.enumFrom n ops).filter fun p => !(hasLaterDupB ks p.1)).map fun p => p.2)
      = keepIdxOps ks n ops := by
  intro ops
  induction ops with
  | nil => intro n; rfl
  | cons op rest ih =>
    intro n
    rw [List.enumFrom_cons, List.filter_cons]
    cases hb : hasLaterDupB ks n with
    | true =>
      simp only [Bool.not_true, Bool.false_eq_true, if_false, keepIdxOps, hb]
      exact ih (n + 1)
    | false =>
      simp only [Bool.not_false, if_true, keepIdxOps, hb, List.map_cons]
      exact congrArg (List.cons op) (ih (n + 1))

theorem keepIdxOps_eq_keepLastOps :
    ∀ (ops : List EtcdOp) (ks : List String) (t : Nat),
    ks.drop t = ops.map etcdOpKey → keepIdxOps ks t ops = keepLastOps ops := by
  intro ops
  induction ops with
  | nil => intro ks t _; rfl
  | cons op rest ih =>
    intro ks t h
    have h0 : ks[t]? = some (etcdOpKey op) := by
      have hd := List.getElem?_drop ks t 0
      rw [h] at hd
      simpa using hd.symm
    have h1 : ks.drop (t + 1) = rest.map etcdOpKey := by
      have hd : ks.drop (t + 1) = (ks.drop t).drop 1 := by
        rw [List.drop_drop, Nat.add_comm]
      rw [hd, h]
      rfl
    have h2 : hasLaterDupB ks t = decide (etcdOpKey op ∈ rest.map etcdOpKey) := by
      simp [hasLaterDupB, h0, h1]
    by_cases hmem : etcdOpKey op ∈ rest.map etcdOpKey
    · have hb : hasLaterDupB ks t = true := by rw [h2]; exact decide_eq_true hmem
      simp only [keepIdxOps, hb, keepLastOps, if_pos hmem]
      exact ih ks (t + 1) h1
    · have hb : hasLaterDupB ks t = false := by
        rw [h2]; exact decide_eq_false hmem
      simp only [keepIdxOps, hb, keepLastOps, if_neg hmem]
      exact congrArg (List.cons op) (ih ks (t + 1) h1)

/-- The write-dedup pass keeps exactly the last op for every key. -/
theorem etcdRemoveDupThenList_eq_keepLastOps (ops : List EtcdOp) :
    etcdRemoveDupThenList ops = keepLastOps ops := by
  have hfc : ∀ p ∈ (List.enumFrom 0 ops),
      (decide (¬ p.1 ∈ dupThenMarks (ops.map etcdOpKey) 0 []))
        = (!(hasLaterDupB (ops.map etcdOpKey) p.1)) := by
    intro p _
    by_cases hmem : p.1 ∈ dupThenMarks (ops.map etcdOpKey) 0 []
    · have := (mem_dupThenMarks_top (ops.map etcdOpKey) p.1).mp hmem
      simp [hmem, this]
    · have : ¬ hasLaterDupB (ops.map etcdOpKey) p.1 = true :=
        fun hc => hmem ((mem_dupThenMarks_top (ops.map etcdOpKey) p.1).mpr hc)
      have hf : hasLaterDupB (ops.map etcdOpKey) p.1 = false := by
        cases hx : hasLaterDupB (ops.map etcdOpKey) p.1
        · rfl
        · exact absurd hx this
      simp [hmem, hf]
  rw [show etcdRemoveDupThenList ops
      = (((List.enumFrom 0 ops).filter fun p =>
          decide (¬ p.1 ∈ dupThenMarks (ops.map etcdOpKey) 0 [])).map fun p => p.2)
    from rfl]
  rw [List.filter_congr hfc, keepIdx_spec (ops.map etcdOpKey) ops 0]
  exact keepIdxOps_eq_keepLastOps ops (ops.map etcdOpKey) 0 rfl

theorem length_keepLastOps (ops : List EtcdOp) :
    (keepLastOps ops).length = (ops.map etcdOpKey).toFinset.card := by
  induction ops with
  | nil => rfl
  | cons op rest ih =>
    by_cases h : etcdOpKey op ∈ rest.map etcdOpKey
    · simp [keepLastOps, h, ih, List.toFinset_cons,
        Finset.insert_eq_self.mpr (List.mem_toFinset.mpr h)]
    · simp [keepLastOps, h, ih, List.toFinset_cons,
        Finset.card_insert_of_not_mem (fun hc => h (List.mem_toFinset.mp hc))]

theorem mem_map_key_keepLastOps (ops : List EtcdOp) (a : String) :
    a ∈ (keepLastOps ops).map etcdOpKey → a ∈ ops.map etcdOpKey := by
  induction ops with
  | nil => intro h; exact absurd h (by simp [keepLastOps])
  | cons op rest ih =>
    intro h
    by_cases hm : etcdOpKey op ∈ rest.map etcdOpKey
    · rw [keepLastOps, if_pos hm] at h
      exact List.mem_cons_of_mem _ (ih h)
    · rw [keepLastOps, if_neg hm, List.map_cons] at h
      rcases List.mem_cons.mp h with h1 | h1
      · rw [List.map_cons, h1]
        exact List.mem_cons_self _ _
      · rw [List.map_cons]
        exact List.mem_cons_of_mem _ (ih h1)

theorem nodup_keys_keepLastOps (ops : List EtcdOp) :
    ((keepLastOps ops).map etcdOpKey).Nodup := by
  induction ops with
  | nil => simp [keepLastOps]
  | cons op rest ih =>
    by_cases h : etcdOpKey op ∈ rest.map etcdOpKey
    · simpa [keepLastOps, h] using ih
    · rw [keepLastOps, if_neg h]
      simp only [List.map_cons, List.nodup_cons]
      exact ⟨fun hc => h (mem_map_key_keepLastOps rest _ hc), ih⟩

/-- Net semantics of the event-dedup pass: a non-nil slot survives iff its
key was not already seen (nil slots stay nil). -/
def keepFirstSlots (seen : List String) : List (Option Event) → List (Option Event)
  | [] => []
  | none :: evs => none :: keepFirstSlots seen evs
  | some ev :: evs =>
    if etcdEventKey ev ∈ seen then none :: keepFirstSlots seen evs
    else some ev :: keepFirstSlots (etcdEventKey ev :: seen) evs

theorem keepFirstSlots_congr :
    ∀ (evs : List (Option Event)) (seen1 seen2 : List String),
    (∀ k, k ∈ seen1 ↔ k ∈ seen2) →
    keepFirstSlots seen1 evs = keepFirstSlots seen2 evs := by
  intro evs
  induction evs with
  | nil => intro _ _ _; rfl
  | cons hd evs ih =>
    intro seen1 seen2 hseen
    cases hd with
    | none => simp only [keepFirstSlots]; exact congrArg _ (ih _ _ hseen)
    | some ev =>
      by_cases h : etcdEventKey ev ∈ seen1
      · rw [keepFirstSlots, if_pos h, keepFirstSlots, if_pos ((hseen _).mp h)]
        exact congrArg _ (ih _ _ hseen)
      · rw [keepFirstSlots, if_neg h, keepFirstSlots,
          if_neg (fun hc => h ((hseen _).mpr hc))]
        refine congrArg _ (ih _ _ fun k => ?_)
        simp only [List.mem_cons]
        exact or_congr Iff.rfl (hseen k)

theorem mem_aset_keys (idx : List (String × Nat)) (k : String) (i : Nat) (k' : String) :
    k' ∈ (aset idx k i).map Prod.fst ↔ k' = k ∨ k' ∈ idx.map Prod.fst := by
  induction idx with
  | nil => simp [aset]
  | cons hd t ih =>
    obtain ⟨a, b⟩ := hd
    by_cases h : a = k
    · subst h
      have ha : aset ((a, b) :: t) a i = (a, i) :: t := by simp [aset]
      rw [ha]
      simp only [List.map_cons, List.mem_cons]
      tauto
    · have ha : aset ((a, b) :: t) k i = (a, b) :: aset t k i := by simp [aset, h]
      rw [ha]
      simp only [List.map_cons, List.mem_cons, ih]
      tauto

/-- The slot loop of `etcdRemoveDupEvents` computes `keepFirstSlots` with
the keys of the index map as the seen set (the dead fused event and the
remembered indices do not influence the result). -/
theorem dupEventsSlots_eq_keepFirstSlots :
    ∀ (evs : List (Option Event)) (prevEvents : List (Option Event)) (i : Nat)
      (idx : List (String × Nat)),
    dupEventsSlots prevEvents evs i idx = keepFirstSlots (idx.map Prod.fst) evs := by
  intro evs
  induction evs with
  | nil => intro _ _ _; rfl
  | cons hd evs ih =>
    intro prevEvents i idx
    cases hd with
    | none =>
      simp only [dupEventsSlots, keepFirstSlots]
      exact congrArg _ (ih prevEvents (i + 1) idx)
    | some ev =>
      by_cases h : etcdEventKey ev ∈ idx.map Prod.fst
      · have hl : ¬ alookup idx (etcdEventKey ev) = none :=
          fun hc => ((alookup_eq_none_iff idx _).mp hc) h
        cases hlk : alookup idx (etcdEventKey ev) with
        | none => exact absurd hlk hl
        | some p =>
          simp only [dupEventsSlots, hlk, keepFirstSlots, if_pos h]
          rw [ih prevEvents (i + 1) (aset idx (etcdEventKey ev) i)]
          refine congrArg _ (keepFirstSlots_congr evs _ _ fun k => ?_)
          rw [mem_aset_keys]
          constructor
          · rintro (rfl | hk)
            · exact h
            · exact hk
          · exact Or.inr
      · have hlk : alookup idx (etcdEventKey ev) = none :=
          (alookup_eq_none_iff idx _).mpr h
        simp only [dupEventsSlots, hlk, keepFirstSlots, if_neg h]
        rw [ih prevEvents (i + 1) (aset idx (etcdEventKey ev) i)]
        refine congrArg _ (keepFirstSlots_congr evs _ _ fun k => ?_)
        rw [mem_aset_keys, List.mem_cons]

/-- Keys of the non-nil events, in order. -/
def nonNilKeys (evs : List (Option Event)) : List String :=
  (evs.filterMap id).map etcdEventKey

theorem insert_erase_eq_insert (s : Finset String) (a : String) :
    insert a (s.erase a) = insert a s := by
  ext x
  simp only [Finset.mem_insert, Finset.mem_erase]
  tauto

/-- Counting surviving events: one per distinct unseen non-nil key. -/
theorem countP_keepFirstSlots (evs : List (Option Event)) :
    ∀ seen : List String,
    (keepFirstSlots seen evs).countP (fun e => e.isSome)
      = ((nonNilKeys evs).toFinset \ seen.toFinset).card := by
  induction evs with
  | nil => intro seen; simp [keepFirstSlots, nonNilKeys]
  | cons hd evs ih =>
    intro seen
    cases hd with
    | none =>
      rw [keepFirstSlots, List.countP_cons_of_neg _ _ (by simp), ih seen]
      simp [nonNilKeys]
    | some ev =>
      by_cases h : etcdEventKey ev ∈ seen
      · rw [keepFirstSlots, if_pos h, List.countP_cons_of_neg _ _ (by simp), ih seen]
        have : nonNilKeys (some ev :: evs) = etcdEventKey ev :: nonNilKeys evs := by
          simp [nonNilKeys]
        rw [this, List.toFinset_cons,
          Finset.insert_sdiff_of_mem _ (List.mem_toFinset.mpr h)]
      · rw [keepFirstSlots, if_neg h, List.countP_cons_of_pos _ _ (by simp),
          ih (etcdEventKey ev :: seen)]
        have hk : nonNilKeys (some ev :: evs) = etcdEventKey ev :: nonNilKeys evs := by
          simp [nonNilKeys]
        rw [hk, List.toFinset_cons, List.toFinset_cons, Finset.sdiff_insert,
          Finset.insert_sdiff_of_not_mem _ (fun hc => h (List.mem_toFinset.mp hc)),
          ← insert_erase_eq_insert ((nonNilKeys evs).toFinset \ seen.toFinset)
            (etcdEventKey ev),
          Finset.card_insert_of_not_mem (Finset.not_mem_erase _ _)]

/-! ## Buffer construction during the mutate pass

The `do` handlers append to the buffer through exactly four channels:
`etcdCreateRow`, `etcdModifyRow`, `etcdDeleteRow` (a write paired with a
non-nil event of the same key) and `doComment` (a write paired with a nil
event).  A mutate-pass buffer is therefore `applyActions clearedEtcd acts`
for some action list. -/

inductive BufAction where
  | createRow (key val : String)
  | modifyRow (key val prevVal : String)
  | deleteRow (key prevVal : String)
  | comment (key text : String)
deriving DecidableEq, Repr

def BufAction.key : BufAction → String
  | .createRow k _ => k
  | .modifyRow k _ _ => k
  | .deleteRow k _ => k
  | .comment k _ => k

def BufAction.isComment : BufAction → Bool
  | .comment _ _ => true
  | _ => false

/-- The `Then` entry the action appends. -/
def BufAction.writeOp : BufAction → EtcdOp
  | .createRow k v => .put k v
  | .modifyRow k v _ => .put k v
  | .deleteRow k _ => .del k
  | .comment k c => .put k c

/-- The `Events` entry the action appends (nil for comments). -/
def BufAction.eventSlot : BufAction → Option Event
  | .createRow k v => some (etcdEventCreate k v)
  | .modifyRow k v p => some (etcdEventModify k v p)
  | .deleteRow k p => some (etcdEventDelete k p)
  | .comment _ _ => none

def applyAction (etcd : Etcd) : BufAction → Etcd
  | .createRow k v => etcdCreateRow etcd k v
  | .modifyRow k v p => etcdModifyRow etcd k v p
  | .deleteRow k p => etcdDeleteRow etcd k p
  | .comment k c => doCommentAppend etcd k c

def applyActions (etcd : Etcd) (acts : List BufAction) : Etcd :=
  acts.foldl applyAction etcd

theorem applyAction_Then (etcd : Etcd) (a : BufAction) :
    (applyAction etcd a).Then = etcd.Then ++ [a.writeOp] := by
  cases a <;> rfl

theorem applyAction_Events (etcd : Etcd) (a : BufAction) :
    (applyAction etcd a).Events = etcd.Events ++ [a.eventSlot] := by
  cases a <;> rfl

theorem applyAction_NilCount (etcd : Etcd) (a : BufAction) :
    (applyAction etcd a).EventsNilCount = etcd.EventsNilCount := by
  cases a <;> rfl

theorem applyActions_Then :
    ∀ (acts : List BufAction) (etcd : Etcd),
    (applyActions etcd acts).Then = etcd.Then ++ acts.map BufAction.writeOp := by
  intro acts
  induction acts with
  | nil => intro etcd; simp [applyActions]
  | cons a acts ih =>
    intro etcd
    rw [show applyActions etcd (a :: acts) = applyActions (applyAction etcd a) acts
      from rfl, ih, applyAction_Then]
    simp

theorem applyActions_Events :
    ∀ (acts : List BufAction) (etcd : Etcd),
    (applyActions etcd acts).Events = etcd.Events ++ acts.map BufAction.eventSlot := by
  intro acts
  induction acts with
  | nil => intro etcd; simp [applyActions]
  | cons a acts ih =>
    intro etcd
    rw [show applyActions etcd (a :: acts) = applyActions (applyAction etcd a) acts
      from rfl, ih, applyAction_Events]
    simp

theorem applyActions_NilCount :
    ∀ (acts : List BufAction) (etcd : Etcd),
    (applyActions etcd acts).EventsNilCount = etcd.EventsNilCount := by
  intro acts
  induction acts with
  | nil => intro etcd; rfl
  | cons a acts ih =>
    intro etcd
    rw [show applyActions etcd (a :: acts) = applyActions (applyAction etcd a) acts
      from rfl, ih, applyAction_NilCount]

theorem etcdOpKey_writeOp (a : BufAction) : etcdOpKey a.writeOp = a.key := by
  cases a <;> rfl

theorem nonNilKeys_map_eventSlot :
    ∀ acts : List BufAction,
    nonNilKeys (acts.map BufAction.eventSlot)
      = (acts.filter fun a => !a.isComment).map BufAction.key := by
  intro acts
  induction acts with
  | nil => rfl
  | cons a acts ih =>
    cases a <;>
      simp [nonNilKeys, BufAction.eventSlot, BufAction.isComment, BufAction.key,
        etcdEventKey, etcdEventCreate, etcdEventModify, etcdEventDelete,
        List.filter_cons] <;>
      simpa [nonNilKeys] using ih

theorem countP_isNone_eventSlot :
    ∀ acts : List BufAction,
    (acts.map BufAction.eventSlot).countP (fun e => e.isNone)
      = acts.countP (fun a => a.isComment) := by
  intro acts
  induction acts with
  | nil => rfl
  | cons a acts ih =>
    cases a <;>
      simp [BufAction.eventSlot, BufAction.isComment, List.countP_cons, ih]

/-- Freshness of comment keys: a comment's timestamp key occurs exactly
once among all keys of the buffer actions.  (In the source, comment keys
live under the reserved `_comment` pseudo-table and are RFC3339 timestamps,
so they do not collide with data-row keys; two comments in the same second
would violate this, see the C6 notes.) -/
def commentKeysFresh (acts : List BufAction) : Prop :=
  ∀ a ∈ acts, a.isComment = true → (acts.map BufAction.key).count a.key = 1

instance (acts : List BufAction) : Decidable (commentKeysFresh acts) := by
  unfold commentKeysFresh; infer_instance

theorem commentKeysFresh_tail (a : BufAction) (rest : List BufAction)
    (h : commentKeysFresh (a :: rest)) : commentKeysFresh rest := by
  intro b hb hbc
  have hfull := h b (List.mem_cons_of_mem a hb) hbc
  rw [List.map_cons, List.count_cons] at hfull
  have hbmem : b.key ∈ rest.map BufAction.key := List.mem_map_of_mem _ hb
  have hpos : 0 < (rest.map BufAction.key).count b.key := List.count_pos_iff.mpr hbmem
  by_cases hak : a.key = b.key
  · rw [if_pos (by simp [hak])] at hfull
    omega
  · rw [if_neg (by simp [hak])] at hfull
    omega

/-- Distinct keys split: when comment keys are fresh, the number of
distinct keys overall is the number of distinct non-comment keys plus the
number of comments. -/
theorem toFinset_card_key_split :
    ∀ acts : List BufAction, commentKeysFresh acts →
    (acts.map BufAction.key).toFinset.card
      = ((acts.filter fun a => !a.isComment).map BufAction.key).toFinset.card
        + acts.countP (fun a => a.isComment) := by
  intro acts
  induction acts with
  | nil => intro _; rfl
  | cons a rest ih =>
    intro h
    have hrest := commentKeysFresh_tail a rest h
    cases hcom : a.isComment with
    | true =>
      have hcnt := h a (List.mem_cons_self a rest) hcom
      rw [List.map_cons, List.count_cons, if_pos (by simp)] at hcnt
      have hzero : (rest.map BufAction.key).count a.key = 0 := by omega
      have hnot : a.key ∉ rest.map BufAction.key := List.count_eq_zero.mp hzero
      rw [List.map_cons, List.toFinset_cons,
        Finset.card_insert_of_not_mem (fun hc => hnot (List.mem_toFinset.mp hc)),
        List.filter_cons, List.countP_cons]
      simp only [hcom, Bool.not_true, Bool.false_eq_true, if_false, if_pos]
      rw [ih hrest]
      omega
    | false =>
      rw [List.map_cons, List.toFinset_cons, List.filter_cons, List.countP_cons]
      simp only [hcom, Bool.not_false, if_true, Bool.false_eq_true, if_false,
        List.map_cons, List.toFinset_cons]
      by_cases hmem : a.key ∈ rest.map BufAction.key
      · have hmemNC : a.key ∈ (rest.filter fun b => !b.isComment).map BufAction.key := by
          obtain ⟨b, hb, hkb⟩ := List.mem_map.mp hmem
          cases hbc : b.isComment with
          | true =>
            exfalso
            have hfull := h b (List.mem_cons_of_mem a hb) hbc
            rw [List.map_cons, List.count_cons, hkb] at hfull
            have : 0 < (rest.map BufAction.key).count b.key :=
              List.count_pos_iff.mpr (List.mem_map_of_mem _ hb)
            rw [hkb] at this
            rw [if_pos (by simp)] at hfull
            omega
          | false =>
            exact List.mem_map.mpr
              ⟨b, List.mem_filter.mpr ⟨hb, by simp [hbc]⟩, hkb⟩
        rw [Finset.insert_eq_self.mpr (List.mem_toFinset.mpr hmem),
          Finset.insert_eq_self.mpr (List.mem_toFinset.mpr hmemNC)]
        exact ih hrest
      · have hmemNC : a.key ∉ (rest.filter fun b => !b.isComment).map BufAction.key := by
          intro hc
          obtain ⟨b, hb, hkb⟩ := List.mem_map.mp hc
          exact hmem (List.mem_map.mpr ⟨b, (List.mem_filter.mp hb).1, hkb⟩)
        rw [Finset.card_insert_of_not_mem (fun hc => hmem (List.mem_toFinset.mp hc)),
          Finset.card_insert_of_not_mem (fun hc => hmemNC (List.mem_toFinset.mp hc)),
          ih hrest]
        omega

theorem etcdRemoveDupThen_Then (e : Etcd) :
    (etcdRemoveDupThen e).Then = etcdRemoveDupThenList e.Then := rfl

theorem etcdRemoveDupThen_Events (e : Etcd) :
    (etcdRemoveDupThen e).Events = e.Events := rfl

theorem etcdRemoveDupThen_NilCount (e : Etcd) :
    (etcdRemoveDupThen e).EventsNilCount = e.EventsNilCount := rfl

theorem etcdRemoveDupEvents_Then (e : Etcd) :
    (etcdRemoveDupEvents e).Then = e.Then := rfl

theorem etcdRemoveDupEvents_Events (e : Etcd) :
    (etcdRemoveDupEvents e).Events
      = (dupEventsSlots e.Events e.Events 0 []).filter (fun x => x.isSome) := rfl

theorem etcdRemoveDupEvents_NilCount (e : Etcd) :
    (etcdRemoveDupEvents e).EventsNilCount
      = e.EventsNilCount + e.Events.countP (fun x => x.isNone) := rfl

/-! ## Claim C6: the pairing invariant -/

/-- Claim C6, counterexample: `etcdGetData` (transact.go:1398-1402), called
by every `pre` handler that enqueues a fetch, appends to `Then` without
appending an event and without asserting, so the pairing equality is false
right after this append (and at the fetch-pass submission point). -/
theorem C6_pairing_broken_by_get_append :
    ¬ (etcdGetData clearedEtcd "ovsdb/nb/db/table1/").pairing := by
  decide

/-- Claim C6 as amended: the pairing `len(Then) = len(Events) +
EventsNilCount` holds after `Clear`, after every write-with-event append of
the mutate pass (create-row, modify-row, delete-row, comment — each appends
one write and one event slot), and it is preserved by the compaction pass
provided the comment keys are fresh (each occurs exactly once among the
appended keys).  Fetch-pass range-get appends do not preserve it. -/
theorem C6_pairing_amended :
    clearedEtcd.pairing ∧
    (∀ acts : List BufAction, commentKeysFresh acts →
      (∀ n : Nat, (applyActions clearedEtcd (acts.take n)).pairing) ∧
      (etcdRemoveDup (applyActions clearedEtcd acts)).pairing) := by
  refine ⟨by decide, ?_⟩
  intro acts hfresh
  constructor
  · intro n
    show (applyActions clearedEtcd (acts.take n)).Then.length = _
    rw [applyActions_Then, applyActions_Events, applyActions_NilCount]
    simp [clearedEtcd]
  · have hrd : etcdRemoveDup (applyActions clearedEtcd acts)
        = etcdRemoveDupEvents (etcdRemoveDupThen (applyActions clearedEtcd acts)) := rfl
    show (etcdRemoveDup (applyActions clearedEtcd acts)).Then.length = _
    rw [hrd, etcdRemoveDupEvents_Then, etcdRemoveDupThen_Then,
      etcdRemoveDupEvents_Events, etcdRemoveDupEvents_NilCount,
      etcdRemoveDupThen_Events, etcdRemoveDupThen_NilCount,
      etcdRemoveDupThenList_eq_keepLastOps, length_keepLastOps,
      dupEventsSlots_eq_keepFirstSlots, ← List.countP_eq_length_filter,
      applyActions_Then, applyActions_Events, applyActions_NilCount]
    simp only [List.map_nil, clearedEtcd, List.nil_append]
    rw [countP_keepFirstSlots, List.map_map,
      show (etcdOpKey ∘ BufAction.writeOp) = BufAction.key from funext etcdOpKey_writeOp,
      nonNilKeys_map_eventSlot, countP_isNone_eventSlot]
    simp only [List.toFinset_nil, Finset.sdiff_empty]
    rw [toFinset_card_key_split acts hfresh]
    omega

/-- Witness for C6 at a concrete action list (one row write, one comment
with a fresh key). -/
theorem C6_pairing_amended_witness :
    commentKeysFresh [BufAction.createRow "a" "1", BufAction.comment "c" "x"] ∧
    (applyActions clearedEtcd
      ([BufAction.createRow "a" "1", BufAction.comment "c" "x"].take 1)).pairing ∧
    (etcdRemoveDup (applyActions clearedEtcd
      [BufAction.createRow "a" "1", BufAction.comment "c" "x"])).pairing :=
  ⟨by decide,
   (C6_pairing_amended.2 [BufAction.createRow "a" "1", BufAction.comment "c" "x"]
     (by decide)).1 1,
   (C6_pairing_amended.2 [BufAction.createRow "a" "1", BufAction.comment "c" "x"]
     (by decide)).2⟩

/-! ## Claim C7: write deduplication -/

/-- Claim C7, counterexample: among multiple events for the same key the
compaction keeps the FIRST event and removes the later ones — it does not
null the earlier ones.  For a create followed by a modify of key "r", the
surviving event is the earlier create (with the pre-modification value),
not the event paired with the surviving (last) write. -/
theorem C7_events_keep_first_not_last :
    (etcdRemoveDup (applyActions clearedEtcd
        [BufAction.createRow "r" "old", BufAction.modifyRow "r" "new" "old"])).Events
      = [some (etcdEventCreate "r" "old")] ∧
    etcdEventCreate "r" "old" ≠ etcdEventModify "r" "new" "old" := by
  exact ⟨by decide, by decide⟩

/-- Claim C7 as amended: after compaction no two writes target the same key
(the surviving write keys are pairwise distinct), and among multiple writes
to the same key only the last one is kept (`keepLastOps`), the earlier ones
being removed from the write stream; in the EVENT stream, however, the
first event for each key is kept and the later ones are removed
(`keepFirstSlots`). -/
theorem C7_dedup_amended (etcd : Etcd) :
    ((etcdRemoveDup etcd).Then.map etcdOpKey).Nodup ∧
    (etcdRemoveDup etcd).Then = keepLastOps etcd.Then ∧
    (etcdRemoveDup etcd).Events
      = (keepFirstSlots [] etcd.Events).filter (fun e => e.isSome) := by
  have hthen : (etcdRemoveDup etcd).Then = keepLastOps etcd.Then := by
    show (etcdRemoveDupEvents (etcdRemoveDupThen etcd)).Then = _
    rw [etcdRemoveDupEvents_Then, etcdRemoveDupThen_Then,
      etcdRemoveDupThenList_eq_keepLastOps]
  refine ⟨?_, hthen, ?_⟩
  · rw [hthen]
    exact nodup_keys_keepLastOps etcd.Then
  · show (etcdRemoveDupEvents (etcdRemoveDupThen etcd)).Events = _
    rw [etcdRemoveDupEvents_Events, etcdRemoveDupThen_Events,
      dupEventsSlots_eq_keepFirstSlots]
    simp only [List.map_nil]

/-! ## Claim C4: insert pre-phase -/

/-- Go map read `txn.mapUUID[name]` (comma-ok form). -/
def mapUUIDGet : List (String × String) → String → Option String
  | [], _ => none
  | (k, v) :: t, name => if k = name then some v else mapUUIDGet t name

/-- transact.go:366-369 `MapUUID.Set`. -/
def mapUUIDSet : List (String × String) → String → String → List (String × String)
  | [], name, uuid => [(name, uuid)]
  | (k, v) :: t, name, uuid =>
    if k = name then (name, uuid) :: t else (k, v) :: mapUUIDSet t name uuid

/-- The external key codec `common.NewTableKey(db, table)`, modelled as an
opaque flat string. -/
def tableKeyString (dbName table : String) : String :=
  dbName ++ "/" ++ table

/-- The fields of `libovsdb.Operation` that `preInsert` reads. -/
structure InsertOp where
  table : String
  uuidName : Option String
  uuid : Option String
deriving DecidableEq, Repr

/-- The transaction state `preInsert` touches: the named-UUID map and the
fetch buffer's `Then` list. -/
structure PreInsertState where
  mapUUID : List (String × String)
  thenOps : List EtcdOp
deriving DecidableEq, Repr

/-- transact.go:1559-1579 `preInsert`.  `freshUUID` stands for the value of
`common.GenerateUUID()` (the external generator).  Note the early return on
line 1560-1562: when no uuid-name is supplied the function returns before
reaching the table range-get enqueue on lines 1576-1577. -/
def preInsert (freshUUID dbName : String) (op : InsertOp) (st : PreInsertState) :
    Except String PreInsertState :=
  match op.uuidName with
  | none => Except.ok st
  | some name =>
    let uuid := freshUUID
    let uuid := match op.uuid with | some u => u | none => uuid
    if (mapUUIDGet st.mapUUID name).isSome then
      Except.error E_DUP_UUIDNAME
    else
      Except.ok
        { mapUUID := mapUUIDSet st.mapUUID name uuid
          thenOps := st.thenOps ++ [EtcdOp.get (tableKeyString dbName op.table)] }

/-- Claim C4, counterexample: for an insert with no uuid-name, `preInsert`
returns immediately and enqueues NO table range-get — the fetch buffer is
unchanged, against the claim that the range-get is enqueued for every
insert. -/
theorem C4_preInsert_skips_get_without_uuidname :
    ¬ ∃ st' : PreInsertState,
      preInsert "u0" "db" { table := "t", uuidName := none, uuid := none } ⟨[], []⟩
          = Except.ok st' ∧
        st'.thenOps.length = 1 := by
  rintro ⟨st', hok, hlen⟩
  have hev : preInsert "u0" "db" { table := "t", uuidName := none, uuid := none }
      (⟨[], []⟩ : PreInsertState) = Except.ok (⟨[], []⟩ : PreInsertState) := rfl
  rw [hev] at hok
  have : (⟨[], []⟩ : PreInsertState) = st' := Except.ok.inj hok
  rw [← this] at hlen
  simp at hlen

/-- Claim C4 as amended: the pre phase of insert reserves the named-UUID
when one is given, failing with `duplicate uuid-name` if the name was
already reserved, and enqueues the table range-get ONLY in that case; when
no uuid-name is supplied it returns at once with the state unchanged and no
range-get is enqueued. -/
theorem C4_preInsert_behavior (freshUUID dbName : String) (op : InsertOp)
    (st : PreInsertState) :
    (op.uuidName = none → preInsert freshUUID dbName op st = Except.ok st) ∧
    (∀ name, op.uuidName = some name → (mapUUIDGet st.mapUUID name).isSome = true →
      preInsert freshUUID dbName op st = Except.error E_DUP_UUIDNAME) ∧
    (∀ name, op.uuidName = some name → mapUUIDGet st.mapUUID name = none →
      preInsert freshUUID dbName op st = Except.ok
        { mapUUID := mapUUIDSet st.mapUUID name
            (match op.uuid with | some u => u | none => freshUUID)
          thenOps := st.thenOps ++ [EtcdOp.get (tableKeyString dbName op.table)] }) := by
  refine ⟨?_, ?_, ?_⟩
  · intro h
    simp [preInsert, h]
  · intro name hname hsome
    simp [preInsert, hname, hsome]
  · intro name hname hnone
    simp [preInsert, hname, hnone]

/-- Witness for C4: the three behaviours at concrete inputs. -/
theorem C4_preInsert_behavior_witness :
    preInsert "u0" "db" { table := "t", uuidName := none, uuid := none } ⟨[], []⟩
        = Except.ok (⟨[], []⟩ : PreInsertState) ∧
    preInsert "u0" "db" { table := "t", uuidName := some "n", uuid := none }
        ⟨[("n", "x")], []⟩ = Except.error E_DUP_UUIDNAME ∧
    preInsert "u0" "db" { table := "t", uuidName := some "n", uuid := none } ⟨[], []⟩
        = Except.ok ⟨[("n", "u0")], [EtcdOp.get (tableKeyString "db" "t")]⟩ :=
  ⟨(C4_preInsert_behavior "u0" "db" _ _).1 rfl,
   (C4_preInsert_behavior "u0" "db" _ _).2.1 "n" rfl (by decide),
   (C4_preInsert_behavior "u0" "db" _ _).2.2 "n" rfl rfl⟩

/-! ## Claim C5: select is not mixed with other operations -/

def OP_SELECT : String := "select"

/-- One dispatch pass of `Commit` (the `for ... range Operations` loops at
transact.go:626-638 and 648-660), abstracted over the per-op handler;
returns how many handlers ran and the first error. -/
def runPhase (handler : String → Except String Unit) : List String → Nat × Except String Unit
  | [] => (0, Except.ok ())
  | o :: rest =>
    match handler o with
    | Except.error e => (1, Except.error e)
    | Except.ok _ =>
      let r := runPhase handler rest
      (r.1 + 1, r.2)

structure CommitResult where
  revision : Int
  responseError : Option String
  dispatched : Nat
  submissions : Nat
deriving DecidableEq, Repr

/-- transact.go:600-671 `Transaction.Commit`, abstracted: the per-op `pre`
and `do` handlers are parameters (their dispatch table is
`ovsOpCallbackMap`), each `etcdTranaction` round-trip is counted in
`submissions`, and a fully successful commit returns the backend revision
`rev`.  The select-mix guard (lines 606-622) runs before any dispatch: when
the batch has a select and a non-select, Commit stamps the response error
with `constraint violation` and returns -1 before running any handler or
submitting anything. -/
def TransactionCommit (pre doo : String → Except String Unit) (rev : Int)
    (ops : List String) : CommitResult :=
  let hasSelect := ops.any fun o => o == OP_SELECT
  let hasOther := ops.any fun o => !(o == OP_SELECT)
  if hasSelect && hasOther then
    { revision := -1, responseError := some E_CONSTRAINT_VIOLATION,
      dispatched := 0, submissions := 0 }
  else
    match runPhase pre ops with
    | (n, Except.error e) =>
      { revision := -1, responseError := some e, dispatched := n, submissions := 0 }
    | (n, Except.ok _) =>
      match runPhase doo ops with
      | (m, Except.error e) =>
        { revision := -1, responseError := some e, dispatched := n + m, submissions := 1 }
      | (m, Except.ok _) =>
        { revision := rev, responseError := none, dispatched := n + m, submissions := 2 }

/-- Claim C5: a batch with at least one select and at least one non-select
operation fails with `constraint violation` before any dispatch: the
response error is that string, no handler runs, and nothing is submitted to
the backend. -/
theorem C5_commit_select_isolation (pre doo : String → Except String Unit)
    (rev : Int) (ops : List String)
    (hsel : ∃ o ∈ ops, o = OP_SELECT) (hoth : ∃ o ∈ ops, ¬ o = OP_SELECT) :
    TransactionCommit pre doo rev ops =
      { revision := -1, responseError := some E_CONSTRAINT_VIOLATION,
        dispatched := 0, submissions := 0 } := by
  have h1 : (ops.any fun o => o == OP_SELECT) = true := by
    obtain ⟨o, ho, hoe⟩ := hsel
    exact List.any_eq_true.mpr ⟨o, ho, by simp [hoe]⟩
  have h2 : (ops.any fun o => !(o == OP_SELECT)) = true := by
    obtain ⟨o, ho, hne⟩ := hoth
    exact List.any_eq_true.mpr ⟨o, ho, by simp [hne]⟩
  simp [TransactionCommit, h1, h2]

/-- Witness for C5 at the batch [select, insert] with trivial handlers. -/
theorem C5_commit_select_isolation_witness :
    TransactionCommit (fun _ => Except.ok ()) (fun _ => Except.ok ()) 7
        ["select", "insert"] =
      { revision := -1, responseError := some E_CONSTRAINT_VIOLATION,
        dispatched := 0, submissions := 0 } :=
  C5_commit_select_isolation (fun _ => Except.ok ()) (fun _ => Except.ok ()) 7
    ["select", "insert"]
    ⟨"select", by decide, rfl⟩
    ⟨"insert", by decide, by decide⟩

/-! ## Claim C8: mutation algebra and RowMutate

Rows are association lists from column name to `Value`; `rowGet`/`rowSet`
are the Go map read and write.  `NewMutation` (transact.go:1098-1147)
resolves the column schema and unmarshals/validates the value through the
external libovsdb hooks; it is abstracted as the `newMutation` parameter of
`RowMutate`, which is where the source calls it. -/

abbrev Row := List (String × Value)

def rowGet : Row → String → Option Value
  | [], _ => none
  | (c, v) :: t, column => if c = column then some v else rowGet t column

def rowSet : Row → String → Value → Row
  | [], column, v => [(column, v)]
  | (c, v') :: t, column, v =>
    if c = column then (column, v) :: t else (c, v') :: rowSet t column v

/-- Mutator strings (transact.go:1081-1089). -/
def MT_SUM : String := "+="
def MT_DIFFERENCE : String := "-="
def MT_PRODUCT : String := "*="
def MT_QUOTIENT : String := "/="
def MT_REMAINDER : String := "%="
def MT_INSERT : String := "insert"
def MT_DELETE : String := "delete"

/-- Column type tag of `libovsdb.ColumnSchema.Type`. -/
inductive CType where
  | integer
  | real
  | boolean
  | string
  | uuid
  | enum
  | set
  | map
deriving DecidableEq, Repr

/-- `libovsdb.ColumnSchema` restricted to the fields `Mutate` reads.
`mutableFlag` is the `Mutable *bool` pointer: `some false` is an explicit
immutable marker, `none` a nil pointer (mutable by default). -/
structure ColumnSchema where
  type : CType
  mutableFlag : Option Bool
deriving DecidableEq, Repr

/-- transact.go:1091-1096 `Mutation`. -/
structure Mutation where
  column : String
  mutator : String
  value : Value
  columnSchema : ColumnSchema
deriving DecidableEq, Repr

/-- transact.go:1149-1184 `Mutation.MutateInteger`.  The row value is
asserted to `int` without a comma-ok (panic on mismatch, modelled as
`E_GO_PANIC`); the mutation value cast failure is `constraint violation`.
On division or modulo by zero the source sets `domain error`, still writes
the unchanged value back, and returns the error. -/
def Mutation.MutateInteger (m : Mutation) (row : Row) : Row × Option String :=
  match rowGet row m.column with
  | some (Value.atom (Atom.int original)) =>
    match m.value with
    | Value.atom (Atom.int value) =>
      if m.mutator = MT_SUM then
        (rowSet row m.column (Value.atom (Atom.int (original + value))), none)
      else if m.mutator = MT_DIFFERENCE then
        (rowSet row m.column (Value.atom (Atom.int (original - value))), none)
      else if m.mutator = MT_PRODUCT then
        (rowSet row m.column (Value.atom (Atom.int (original * value))), none)
      else if m.mutator = MT_QUOTIENT then
        if value ≠ 0 then
          (rowSet row m.column (Value.atom (Atom.int (Int.tdiv original value))), none)
        else
          (rowSet row m.column (Value.atom (Atom.int original)), some E_DOMAIN_ERROR)
      else if m.mutator = MT_REMAINDER then
        if value ≠ 0 then
          (rowSet row m.column (Value.atom (Atom.int (Int.tmod original value))), none)
        else
          (rowSet row m.column (Value.atom (Atom.int original)), some E_DOMAIN_ERROR)
      else
        (row, some E_CONSTRAINT_VIOLATION)
    | _ => (row, some E_CONSTRAINT_VIOLATION)
  | _ => (row, some E_GO_PANIC)

/-- transact.go:1186-1214 `Mutation.MutateReal` (no remainder case; float
arithmetic on the abstract carrier, division by zero is `domain error`). -/
def Mutation.MutateReal (m : Mutation) (row : Row) : Row × Option String :=
  match rowGet row m.column with
  | some (Value.atom (Atom.real original)) =>
    match m.value with
    | Value.atom (Atom.real value) =>
      if m.mutator = MT_SUM then
        (rowSet row m.column (Value.atom (Atom.real (original + value))), none)
      else if m.mutator = MT_DIFFERENCE then
        (rowSet row m.column (Value.atom (Atom.real (original - value))), none)
      else if m.mutator = MT_PRODUCT then
        (rowSet row m.column (Value.atom (Atom.real (original * value))), none)
      else if m.mutator = MT_QUOTIENT then
        if value ≠ 0 then
          (rowSet row m.column (Value.atom (Atom.real (Int.tdiv original value))), none)
        else
          (rowSet row m.column (Value.atom (Atom.real original)), some E_DOMAIN_ERROR)
      else
        (row, some E_CONSTRAINT_VIOLATION)
    | _ => (row, some E_CONSTRAINT_VIOLATION)
  | _ => (row, some E_GO_PANIC)

/-- transact.go:1216-1223 `inSet`. -/
def inSet (set : OvsSet) (a : Atom) : Bool :=
  set.GoSet.any fun b => isEqualValue a b

/-- transact.go:1225-1239 `insertToSet`: append each value of `toInsert`
that is not already in `original` (membership is tested against the
ORIGINAL set, so duplicates inside `toInsert` are all appended). -/
def insertToSet (original : OvsSet) (toInsert : Value) : Except String OvsSet :=
  match toInsert with
  | Value.set toInsertSet =>
    Except.ok ⟨original.GoSet ++ toInsertSet.GoSet.filter fun v => !(inSet original v)⟩
  | _ => Except.error E_CONSTRAINT_VIOLATION

/-- transact.go:1241-1261 `deleteFromSet`. -/
def deleteFromSet (original : OvsSet) (toDelete : Value) : Except String OvsSet :=
  match toDelete with
  | Value.set toDeleteSet =>
    Except.ok ⟨original.GoSet.filter fun current =>
      !(toDeleteSet.GoSet.any fun v => isEqualValue current v)⟩
  | _ => Except.error E_CONSTRAINT_VIOLATION

/-- transact.go:1263-1281 `Mutation.MutateSet`: on error the row is not
written; on success the mutated set is written back. -/
def Mutation.MutateSet (m : Mutation) (row : Row) : Row × Option String :=
  match rowGet row m.column with
  | some (Value.set original) =>
    let res :=
      if m.mutator = MT_INSERT then insertToSet original m.value
      else if m.mutator = MT_DELETE then deleteFromSet original m.value
      else Except.error E_CONSTRAINT_VIOLATION
    match res with
    | Except.error e => (row, some e)
    | Except.ok mutated => (rowSet row m.column (Value.set mutated), none)
  | _ => (row, some E_GO_PANIC)

/-- Go map write `mutated.GoMap[k] = v`. -/
def mapSet : List (Atom × Atom) → Atom → Atom → List (Atom × Atom)
  | [], k, v => [(k, v)]
  | (k', v') :: t, k, v =>
    if k' = k then (k, v) :: t else (k', v') :: mapSet t k v

/-- Go map delete `delete(mutated.GoMap, k)`. -/
def mapRemove (m : List (Atom × Atom)) (k : Atom) : List (Atom × Atom) :=
  m.filter fun kv => !(kv.1 = k : Bool)

/-- transact.go:1283-1296 `insertToMap`: key overwrite from a map value;
any other value type is `constraint violation`. -/
def insertToMap (original : OvsMap) (toInsert : Value) : Except String OvsMap :=
  match toInsert with
  | Value.map mp =>
    Except.ok ⟨mp.GoMap.foldl (fun acc kv => mapSet acc kv.1 kv.2) original.GoMap⟩
  | _ => Except.error E_CONSTRAINT_VIOLATION

/-- transact.go:1298-1314 `deleteFromMap`: from a map, remove an entry iff
the key maps to an equal value; from a set, remove the listed keys.  The
source switch has NO default case, so any other value type returns the
unchanged copy with a nil error. -/
def deleteFromMap (original : OvsMap) (toDelete : Value) : Except String OvsMap :=
  match toDelete with
  | Value.map mp =>
    Except.ok ⟨mp.GoMap.foldl
      (fun acc kv => if mapGet acc kv.1 = some kv.2 then mapRemove acc kv.1 else acc)
      original.GoMap⟩
  | Value.set s =>
    Except.ok ⟨s.GoSet.foldl (fun acc k => mapRemove acc k) original.GoMap⟩
  | _ => Except.ok original

/-- transact.go:1316-1334 `Mutation.MutateMap`. -/
def Mutation.MutateMap (m : Mutation) (row : Row) : Row × Option String :=
  match rowGet row m.column with
  | some (Value.map original) =>
    let res :=
      if m.mutator = MT_INSERT then insertToMap original m.value
      else if m.mutator = MT_DELETE then deleteFromMap original m.value
      else Except.error E_CONSTRAINT_VIOLATION
    match res with
    | Except.error e => (row, some e)
    | Except.ok mutated => (rowSet row m.column (Value.map mutated), none)
  | _ => (row, some E_GO_PANIC)

/-- transact.go:1336-1358 `Mutation.Mutate`: guards (`_uuid`/`_version`,
immutable column), then dispatch on the column type. -/
def Mutation.Mutate (m : Mutation) (row : Row) : Row × Option String :=
  if m.column = COL_UUID ∨ m.column = COL_VERSION then
    (row, some E_CONSTRAINT_VIOLATION)
  else if m.columnSchema.mutableFlag = some false then
    (row, some E_CONSTRAINT_VIOLATION)
  else
    match m.columnSchema.type with
    | CType.integer => m.MutateInteger row
    | CType.real => m.MutateReal row
    | CType.set => m.MutateSet row
    | CType.map => m.MutateMap row
    | _ => (row, some E_CONSTRAINT_VIOLATION)

/-- The loop of `RowMutate` (transact.go:1363-1372) on the working copy:
compile each mutation through `newMutation`, apply it to the copy, stop at
the first error.  The returned pair is (final content of `original`,
returned error): on success the copy is copied back over the original
(line 1373), on error the original is returned untouched. -/
def RowMutateLoop (newMutation : α → Except String Mutation) (original : Row) :
    Row → List α → Row × Option String
  | mutated, [] => (mutated, none)
  | mutated, mt :: rest =>
    match newMutation mt with
    | Except.error e => (original, some e)
    | Except.ok mutation =>
      match mutation.Mutate mutated with
      | (mutated', none) => RowMutateLoop newMutation original mutated' rest
      | (_, some e) => (original, some e)

/-- transact.go:1360-1375 `RowMutate`: the working copy starts as a copy of
the original (`copier.Copy(mutated, original)`). -/
def RowMutate (newMutation : α → Except String Mutation) (original : Row)
    (mutations : List α) : Row × Option String :=
  RowMutateLoop newMutation original original mutations

/-- The claim's words for C8: apply the compiled mutations in order to a
working copy; `some` of the fully mutated copy when every mutation in the
group succeeds, `none` when any fails. -/
def applyMutationsSpec (newMutation : α → Except String Mutation) :
    Row → List α → Option Row
  | row, [] => some row
  | row, mt :: rest =>
    match newMutation mt with
    | Except.error _ => none
    | Except.ok mutation =>
      match mutation.Mutate row with
      | (row', none) => applyMutationsSpec newMutation row' rest
      | (_, some _) => none

theorem rowMutateLoop_of_spec_some {α : Type}
    (newMutation : α → Except String Mutation) (original : Row) :
    ∀ (ms : List α) (mutated r : Row),
    applyMutationsSpec newMutation mutated ms = some r →
    RowMutateLoop newMutation original mutated ms = (r, none) := by
  intro ms
  induction ms with
  | nil =>
    intro mutated r h
    simp only [applyMutationsSpec, Option.some.injEq] at h
    rw [RowMutateLoop, h]
  | cons mt rest ih =>
    intro mutated r h
    rw [applyMutationsSpec] at h
    rw [RowMutateLoop]
    cases hnm : newMutation mt with
    | error e => rw [hnm] at h; exact absurd h (by simp)
    | ok mutation =>
      rw [hnm] at h
      simp only at h
      cases hmut : mutation.Mutate mutated with
      | mk mutated' err =>
        rw [hmut] at h
        cases err with
        | none =>
          simp only at h
          simp only [hmut]
          exact ih mutated' r h
        | some e => exact absurd h (by simp)

theorem rowMutateLoop_of_spec_none {α : Type}
    (newMutation : α → Except String Mutation) (original : Row) :
    ∀ (ms : List α) (mutated : Row),
    applyMutationsSpec newMutation mutated ms = none →
    ∃ e, RowMutateLoop newMutation original mutated ms = (original, some e) := by
  intro ms
  induction ms with
  | nil =>
    intro mutated h
    exact absurd h (by simp [applyMutationsSpec])
  | cons mt rest ih =>
    intro mutated h
    rw [applyMutationsSpec] at h
    rw [RowMutateLoop]
    cases hnm : newMutation mt with
    | error e => exact ⟨e, rfl⟩
    | ok mutation =>
      rw [hnm] at h
      simp only at h
      cases hmut : mutation.Mutate mutated with
      | mk mutated' err =>
        rw [hmut] at h
        cases err with
        | none =>
          simp only at h
          simp only [hmut]
          exact ih mutated' h
        | some e => exact ⟨e, by simp [hmut]⟩

/-- Claim C8: per-row mutation is all-or-nothing.  `RowMutate` applies the
compiled mutations to a working copy of the row; the pair it determines is
(final content of the original row, returned error).  The original is
replaced by the fully mutated copy exactly when every mutation succeeds
(`applyMutationsSpec` returns `some`); on any failure the original is
unchanged and an error is returned.  In particular division or modulo by
zero in `MutateInteger` yields `domain error` (with the working copy's cell
rewritten with its own old value, as the source does). -/
theorem C8_rowMutate_all_or_nothing :
    (∀ (α : Type) (newMutation : α → Except String Mutation) (original : Row)
        (mutations : List α) (r : Row),
      applyMutationsSpec newMutation original mutations = some r →
      RowMutate newMutation original mutations = (r, none)) ∧
    (∀ (α : Type) (newMutation : α → Except String Mutation) (original : Row)
        (mutations : List α),
      applyMutationsSpec newMutation original mutations = none →
      ∃ e, RowMutate newMutation original mutations = (original, some e)) ∧
    (∀ (m : Mutation) (row : Row) (orig : Int),
      m.columnSchema.type = CType.integer →
      ¬ m.column = COL_UUID → ¬ m.column = COL_VERSION →
      ¬ m.columnSchema.mutableFlag = some false →
      rowGet row m.column = some (Value.atom (Atom.int orig)) →
      m.value = Value.atom (Atom.int 0) →
      (m.mutator = MT_QUOTIENT ∨ m.mutator = MT_REMAINDER) →
      m.Mutate row = (rowSet row m.column (Value.atom (Atom.int orig)),
        some E_DOMAIN_ERROR)) := by
  refine ⟨?_, ?_, ?_⟩
  · intro α newMutation original mutations r h
    exact rowMutateLoop_of_spec_some newMutation original mutations original r h
  · intro α newMutation original mutations h
    exact rowMutateLoop_of_spec_none newMutation original mutations original h
  · intro m row orig htype hcu hcv hmut hget hval hq
    rw [Mutation.Mutate, if_neg (by tauto), if_neg hmut, htype]
    rcases hq with hq | hq <;>
      simp [Mutation.MutateInteger, hget, hval, hq, MT_QUOTIENT, MT_REMAINDER,
        MT_SUM, MT_DIFFERENCE, MT_PRODUCT]

/-- Witness for C8: a successful increment, a failing division by zero, and
the domain-error shape of the failing mutation. -/
theorem C8_rowMutate_all_or_nothing_witness :
    RowMutate (fun _ : Unit => Except.ok
        { column := "c", mutator := "+=", value := Value.atom (Atom.int 2),
          columnSchema := { type := CType.integer, mutableFlag := none } })
        [("c", Value.atom (Atom.int 5))] [()]
      = ([("c", Value.atom (Atom.int 7))], none) ∧
    (∃ e, RowMutate (fun _ : Unit => Except.ok
        { column := "c", mutator := "/=", value := Value.atom (Atom.int 0),
          columnSchema := { type := CType.integer, mutableFlag := none } })
        [("c", Value.atom (Atom.int 5))] [()]
      = ([("c", Value.atom (Atom.int 5))], some e)) ∧
    Mutation.Mutate
        { column := "c", mutator := "/=", value := Value.atom (Atom.int 0),
          columnSchema := { type := CType.integer, mutableFlag := none } }
        [("c", Value.atom (Atom.int 5))]
      = ([("c", Value.atom (Atom.int 5))], some E_DOMAIN_ERROR) :=
  ⟨C8_rowMutate_all_or_nothing.1 Unit _ _ [()] _ rfl,
   C8_rowMutate_all_or_nothing.2.1 Unit _ _ [()] rfl,
   C8_rowMutate_all_or_nothing.2.2 _ _ 5 rfl (by decide) (by decide) (by decide)
     rfl rfl (Or.inl rfl)⟩

/-! ## Claim C10: column projection in select -/

/-- The bare Go map read `(*row)[column]`: a missing key yields the nil
interface value (`Value.null`). -/
def rowGetGo (row : Row) (column : String) : Value :=
  match rowGet row column with
  | some v => v
  | none => Value.null

/-- transact.go:1070-1079 `reduceRowByColumns`: with no column list the row
itself; otherwise a fresh row mapping each requested column to the bare map
read — no schema or existence check.  (The source's error result is
invariably nil.) -/
def reduceRowByColumns (row : Row) (columns : Option (List String)) : Row :=
  match columns with
  | none => row
  | some cols =>
    cols.foldl (fun newRow column => rowSet newRow column (rowGetGo row column)) []

/-- transact.go:1628-1650 `doSelect`, with the schema lookup assumed
successful and the condition machinery (`isRowSelectedByWhere` applied to
the op's Where) abstracted as `whereEval`; the cache table is the row
list. -/
def doSelect (whereEval : Row → Except String Bool) (columns : Option (List String)) :
    List Row → Except String (List Row)
  | [] => Except.ok []
  | row :: rest =>
    match whereEval row with
    | Except.error e => Except.error e
    | Except.ok false => doSelect whereEval columns rest
    | Except.ok true =>
      match doSelect whereEval columns rest with
      | Except.error e => Except.error e
      | Except.ok rows => Except.ok (reduceRowByColumns row columns :: rows)

theorem rowGet_rowSet (r : Row) (k k' : String) (v : Value) :
    rowGet (rowSet r k v) k' = if k' = k then some v else rowGet r k' := by
  induction r with
  | nil =>
    by_cases h : k' = k
    · subst h; simp [rowSet, rowGet]
    · have h' : ¬ k = k' := fun hc => h hc.symm
      simp [rowSet, rowGet, h, h']
  | cons hd t ih =>
    obtain ⟨c, v'⟩ := hd
    by_cases h1 : c = k
    · subst h1
      by_cases h2 : k' = c
      · subst h2; simp [rowSet, rowGet]
      · have h2' : ¬ c = k' := fun hc => h2 hc.symm
        simp [rowSet, rowGet, h2, h2']
    · by_cases h2 : c = k'
      · have h3 : ¬ k' = k := fun hc => h1 (hc ▸ h2)
        simp [rowSet, rowGet, h1, h2, h3]
      · simp [rowSet, rowGet, h1, h2, ih]

theorem rowGet_foldl_rowSet (row : Row) :
    ∀ (cols : List String) (acc : Row) (c : String),
    rowGet (cols.foldl (fun newRow column => rowSet newRow column (rowGetGo row column)) acc) c
      = if c ∈ cols then some (rowGetGo row c) else rowGet acc c := by
  intro cols
  induction cols with
  | nil => intro acc c; simp
  | cons col cols ih =>
    intro acc c
    rw [List.foldl_cons, ih]
    by_cases h1 : c ∈ cols
    · simp [h1, List.mem_cons]
    · by_cases h2 : c = col
      · subst h2
        simp [h1, rowGet_rowSet]
    
      · simp [h1, h2, rowGet_rowSet, List.mem_cons]

/-- Projecting onto a column always materialises an entry for it: the value
is the bare map read, `Value.null` when the source row lacks the column. -/
theorem rowGet_reduceRowByColumns (row : Row) (cols : List String) (c : String)
    (hc : c ∈ cols) :
    rowGet (reduceRowByColumns row (some cols)) c = some (rowGetGo row c) := by
  rw [reduceRowByColumns, rowGet_foldl_rowSet, if_pos hc]

/-- Claim C10: when the where evaluation succeeds on every cached row,
`doSelect` returns no error, every result row is the projection of some
matched row, and a requested column that is absent from the matched row
(schema is never consulted) is mapped to the null value. -/
theorem C10_select_unknown_columns_null
    (whereEval : Row → Except String Bool) (cols : List String)
    (tableRows : List Row)
    (hok : ∀ r ∈ tableRows, ∃ b, whereEval r = Except.ok b) :
    ∃ rows, doSelect whereEval (some cols) tableRows = Except.ok rows ∧
      ∀ res ∈ rows, ∃ src ∈ tableRows,
        res = reduceRowByColumns src (some cols) ∧
        ∀ c ∈ cols, rowGet src c = none → rowGet res c = some Value.null := by
  induction tableRows with
  | nil => exact ⟨[], rfl, by simp⟩
  | cons row rest ih =>
    obtain ⟨b, hb⟩ := hok row (List.mem_cons_self row rest)
    obtain ⟨rows, hrows, hprop⟩ := ih fun r hr => hok r (List.mem_cons_of_mem row hr)
    cases b with
    | false =>
      refine ⟨rows, ?_, ?_⟩
      · rw [doSelect, hb, hrows]
      · intro res hres
        obtain ⟨src, hsrc, heq, hnull⟩ := hprop res hres
        exact ⟨src, List.mem_cons_of_mem row hsrc, heq, hnull⟩
    | true =>
      refine ⟨reduceRowByColumns row (some cols) :: rows, ?_, ?_⟩
      · rw [doSelect, hb, hrows]
      · intro res hres
        rcases List.mem_cons.mp hres with rfl | hmem
        · refine ⟨row, List.mem_cons_self row rest, rfl, ?_⟩
          intro c hc hnone
          rw [rowGet_reduceRowByColumns row cols c hc, rowGetGo, hnone]
        · obtain ⟨src, hsrc, heq, hnull⟩ := hprop res hmem
          exact ⟨src, List.mem_cons_of_mem row hsrc, heq, hnull⟩

/-- Witness for C10: selecting the missing column "nope" from a one-row
table yields a result row mapping "nope" to null without error. -/
theorem C10_select_unknown_columns_null_witness :
    ∃ rows, doSelect (fun _ => Except.ok true) (some ["nope"])
        [[("key1", Value.atom (Atom.str "val1"))]] = Except.ok rows ∧
      ∀ res ∈ rows, ∃ src ∈ [[("key1", Value.atom (Atom.str "val1"))]],
        res = reduceRowByColumns src (some ["nope"]) ∧
        ∀ c ∈ ["nope"], rowGet src c = none → rowGet res c = some Value.null :=
  C10_select_unknown_columns_null (fun _ => Except.ok true) ["nope"]
    [[("key1", Value.atom (Atom.str "val1"))]]
    (fun _ _ => ⟨true, rfl⟩)

/-! ## Claim C9: per-database locking -/

/-- transact.go:515-519 `NewTxnLock`: allocates a fresh lock registry.
Allocation identity is modelled by the counter the caller threads in. -/
def NewTxnLockModel (allocId : Nat) : Nat :=
  allocId

/-- The fields of `Transaction` relevant to locking. -/
structure TransactionModel where
  dbName : String
  lockId : Nat
deriving DecidableEq, Repr

/-- transact.go:562-575 `NewTransaction`: line 565 sets
`txn.lock = NewTxnLock()` — a FRESH registry per transaction, not a
process-wide one. -/
def NewTransactionModel (allocId : Nat) (dbName : String) : TransactionModel :=
  { dbName := dbName, lockId := NewTxnLockModel allocId }

/-- Claim C9 (code bug): two transactions on the same database name get
distinct lock registries, so their Commits do not synchronise on a shared
per-database mutex: `Transaction.Commit` locks `txn.lock`, which no other
transaction can ever touch. -/
theorem C9_locks_not_shared :
    (NewTransactionModel 0 "simple").dbName = (NewTransactionModel 1 "simple").dbName ∧
    (NewTransactionModel 0 "simple").lockId ≠ (NewTransactionModel 1 "simple").lockId := by
  decide
